import Mathlib

/-!
Verification of the automatey repository against its specification.

The development shallowly embeds the Python source:
* `ConfigVal` models the nested key-value structure produced by TOML loading
  (src/automatey/automatey.py, tomllib.load).
* `get_config` embeds Automatey.get_config.
* `normalizeTask` / `runAction` embed the run branch of the click command
  automatey_command in src/automatey/cli.py.
* `automateyCall` embeds the singleton construction protocol of the
  Automatey class (__new__ plus the _initialized guard in __init__).
* `combine_csv_files` embeds the CSV-combining helper of
  src/automatey/data_tools.py and src/automatey/duck_tools.py as a trace
  of its observable effects.
* The Graph Builder and Scheduler of spec sections 4.2/4.3 are not present
  in the inspected source (the spec itself records this in section 9); they
  are modelled from the spec, and marked as such in their doc comments.
-/

namespace Automatey

/-- A parsed TOML value, as produced by tomllib.load: the nested key-value
structure walked by Automatey.get_config. Dictionaries keep insertion order,
as Python dicts do. -/
inductive ConfigVal where
  | str (s : String)
  | int (n : Int)
  | bool (b : Bool)
  | list (xs : List ConfigVal)
  | dict (entries : List (String × ConfigVal))
deriving Inhabited

/-- Python dict lookup value[key]; entries of a Python dict have unique keys,
so first-match lookup is exact. -/
def lookupEntry (entries : List (String × ConfigVal)) (key : String) :
    Option ConfigVal :=
  match entries with
  | [] => none
  | (k, v) :: rest => if k = key then some v else lookupEntry rest key

/-- Embeds Automatey.get_config (automatey.py lines 125-140): walk the keys;
at each step, continue only when the current value is a dict containing the
key, otherwise return None (embedded as Option.none). -/
def get_config (value : ConfigVal) (keys : List String) : Option ConfigVal :=
  match keys with
  | [] => some value
  | key :: rest =>
    match value with
    | .dict entries =>
      match lookupEntry entries key with
      | some v => get_config v rest
      | none => none
    | _ => none

/-- The successful walks of get_config, written from the claim: the result is
reached by walking the keys where every step is a dict containing the key. -/
inductive Walks : ConfigVal → List String → ConfigVal → Prop where
  | nil (c : ConfigVal) : Walks c [] c
  | cons (entries : List (String × ConfigVal)) (key : String)
      (rest : List String) (v r : ConfigVal)
      (hk : lookupEntry entries key = some v) (hw : Walks v rest r) :
      Walks (.dict entries) (key :: rest) r

/-- Python membership test key in task for a parsed TOML value, and the
normalization loop of cli.py lines 81-83.  For a dict, key in task is key
membership.  The loop body assigns task[dependencies] = [] which appends the
new key at the end of the dict, as Python dicts do. -/
def hasKey (entries : List (String × ConfigVal)) (key : String) : Bool :=
  match entries with
  | [] => false
  | (k, _) :: rest => k = key || hasKey rest key

/-- Embeds one iteration of the loop in cli.py lines 81-83: a task (a parsed
TOML table) that lacks a dependencies key gains one mapped to the empty list;
otherwise it is unchanged.  Non-dict values are left to `runAction`, which
records the TypeError Python would raise. -/
def normalizeTask (entries : List (String × ConfigVal)) :
    List (String × ConfigVal) :=
  if hasKey entries "dependencies" then entries
  else entries ++ [("dependencies", ConfigVal.list [])]

/-- What the run branch of automatey_command observably does: the echoed
messages and the normalized task list it leaves behind (the inspected source
does nothing further with the tasks). -/
structure RunActionResult where
  messages : List String
  tasks : Option (List (List (String × ConfigVal)))

/-- The message echoed by cli.py when get_config yields no dag section. -/
def noDagMessage : String := "No DAG found in the configuration file."

/-- Embeds the for-loop over tasks in cli.py lines 81-83 (a task that is not
a parsed table makes the Python loop raise TypeError at the item assignment;
the model reports that instead of producing a value). -/
def normalizeAll : List ConfigVal →
    Except String (List (List (String × ConfigVal)))
  | [] => .ok []
  | .dict entries :: rest =>
    match normalizeAll rest with
    | .ok rs => .ok (normalizeTask entries :: rs)
    | .error e => .error e
  | _ :: _ => .error "TypeError"

/-- The keyword names automatey_command passes to the Automatey(...)
construction at cli.py lines 65-67. -/
def runCallKeywords : List String :=
  ["config_file_path", "configure_logging", "configure_exit_timer"]

/-- The parameter names Automatey.__init__ accepts (automatey.py lines
31-34): note register_atexit_timer, not configure_exit_timer. -/
def automateyInitParams : List String :=
  ["self", "config_file_path", "configure_logging", "register_atexit_timer"]

/-- Python keyword-argument binding for a function without **kwargs: the
call binds exactly when every passed keyword is a declared parameter name;
otherwise the call raises TypeError before the body runs. -/
def bindsKeywords (passed accepted : List String) : Bool :=
  passed.all (fun k => accepted.contains k)

/-- Embeds the run branch of automatey_command (cli.py lines 61-87) given
the already-loaded configuration.  The branch first constructs
Automatey(config_file_path=..., configure_logging=...,
configure_exit_timer=...); that call's keyword binding is modelled by
`bindsKeywords` over the literal keyword and parameter name lists — it
fails (configure_exit_timer is not a parameter of Automatey.__init__), so
the call raises TypeError before get_config, outside the try/except
KeyError.  The code after it is kept exactly as the source has it, though
in the staged source it is unreachable.  The max_workers click option
(default 1) is accepted by the command but the run branch never validates
or uses it, so it is an unused parameter here, exactly as in the source.
When get_config returns None the no-DAG message is echoed and the action
returns having run nothing.  Otherwise dag.get with tasks and default []
is evaluated and each task is normalized; paths on which the Python code
would raise (dag not a dict, tasks not a list of tables) are reported as
errors naming the exception. -/
def runAction (config : ConfigVal) (_max_workers : Int) :
    Except String RunActionResult :=
  if bindsKeywords runCallKeywords automateyInitParams then
    match get_config config ["automatey", "dag"] with
    | none => .ok ⟨[noDagMessage], none⟩
    | some dag =>
      match dag with
      | .dict dagEntries =>
        match lookupEntry dagEntries "tasks" with
        | none => .ok ⟨[], some []⟩
        | some (.list taskVals) =>
          match normalizeAll taskVals with
          | .ok ts => .ok ⟨[], some ts⟩
          | .error e => .error e
        | some _ => .error "TypeError"
      | _ => .error "AttributeError"
  else .error "TypeError"

/-! ## The Automatey singleton (automatey.py lines 13-74) -/

/-- The external collaborators a construction of Automatey consults:
datetime.now() and the filesystem search of set_config (which yields the
loaded configuration together with the config_location it records). -/
structure Env where
  nowYear : Nat
  nowMonth : Nat
  nowDay : Nat
  nowHour : Nat
  nowMinute : Nat
  nowSecond : Nat
  loadConfig : String → ConfigVal × String

/-- str(n).rjust(2, the zero character), as used for the date and time
constants in Automatey.__init__. -/
def padTwo (n : Nat) : String :=
  let s := toString n
  if s.length < 2 then "0" ++ s else s

/-- The fields an Automatey object carries after initialization, with the
_initialized re-initialization guard flag. -/
structure AutomateyObj where
  initialized : Bool
  config : ConfigVal
  config_location : String
  current_year : String
  current_month : String
  current_day : String
  current_date : String
  current_hour : String
  current_minute : String
  current_second : String
  current_time : String

/-- A freshly allocated object before __init__ has run (no fields set yet;
the defaults stand in for the absent Python attributes, and getattr with
default False makes the guard read false). -/
def freshObj : AutomateyObj :=
  { initialized := false, config := .dict [], config_location := ""
    current_year := "", current_month := "", current_day := ""
    current_date := "", current_hour := "", current_minute := ""
    current_second := "", current_time := "" }

/-- Embeds Automatey.__init__ (automatey.py lines 31-74): return immediately
when _initialized is already set, otherwise set it and compute the date/time
constants and the configuration.  Logging and atexit-timer configuration are
external side effects with no bearing on the object fields modelled here. -/
def automateyInit (env : Env) (config_file_path : String)
    (obj : AutomateyObj) : AutomateyObj :=
  if obj.initialized then obj
  else
    let yr := toString env.nowYear
    let mo := padTwo env.nowMonth
    let dy := padTwo env.nowDay
    let hr := padTwo env.nowHour
    let mi := padTwo env.nowMinute
    let sc := padTwo env.nowSecond
    let loaded := env.loadConfig config_file_path
    { initialized := true
      config := loaded.1
      config_location := loaded.2
      current_year := yr, current_month := mo, current_day := dy
      current_date := yr ++ mo ++ dy
      current_hour := hr, current_minute := mi, current_second := sc
      current_time := hr ++ mi ++ sc }

/-- Embeds one evaluation of Automatey(...): __new__ returns the stored
class-level _instance when present (allocating a fresh object otherwise),
then __init__ runs on it.  Returns the object the expression evaluates to
together with the updated _instance variable. -/
def automateyCall (env : Env) (config_file_path : String)
    (instVar : Option AutomateyObj) : AutomateyObj × Option AutomateyObj :=
  let obj0 := match instVar with
    | some o => o
    | none => freshObj
  let obj := automateyInit env config_file_path obj0
  (obj, some obj)

/-! ## combine_csv_files (data_tools.py / duck_tools.py lines 7-62) -/

/-- The observable effects of combine_csv_files: echoed messages, opening
the DuckDB connection, and the COPY statement that creates the output
file. -/
inductive CsvEffect where
  | echo (msg : String)
  | connectDB
  | writeOutput (path : String)
deriving Repr, DecidableEq

/-- Whether glob.glob with pattern *.csv matches a file name: the name ends
with the four characters .csv, case-sensitively (the *.CSV line in the
source is commented out), stated on the character list so it evaluates. -/
def matchesCsvGlob (name : String) : Bool :=
  decide (name.data.reverse.take 4 = ".csv".data.reverse)

/-- os.path.join for the two-argument uses in combine_csv_files. -/
def pathJoin (dir file : String) : String := dir ++ "/" ++ file

/-- The SQL fragments accumulated by the loop over csv_files (data_tools.py
lines 32-41): a SELECT per file, preceded from the second file on by a UNION
BY NAME (or UNION ALL BY NAME when the all flag is set). -/
def sqlForFile (file : String) : String :=
  "SELECT * FROM read_csv_auto('" ++ file ++ "', header=True)"

/-- One loop iteration's appended statements, indexed by enumerate. -/
def sqlStatementsGo (all : Bool) (idx : Nat) : List String → List String
  | [] => []
  | file :: rest =>
    (if idx > 0 then
      [if all then "UNION ALL BY NAME" else "UNION BY NAME", sqlForFile file]
    else
      [sqlForFile file]) ++ sqlStatementsGo all (idx + 1) rest

/-- The echo per file inside the loop. -/
def fileEchoes (files : List String) : List CsvEffect :=
  files.map (fun f => .echo (" - " ++ f))

/-- Embeds combine_csv_files given the glob result csv_files, returning the
trace of observable effects in program order.  Fewer than two files: a
single message and an early return; otherwise the echoes, the connection,
and the COPY that writes the output file. -/
def combine_csv_files (csv_files : List String)
    (directory_path output_file : String) (all : Bool) : List CsvEffect :=
  if csv_files = [] then
    [.echo ("No CSV files found in directory: " ++ directory_path)]
  else if csv_files.length > 1 then
    [.echo ("Found " ++ toString csv_files.length ++ " CSV files to combine."),
     .echo "CSV Files:"] ++
    fileEchoes csv_files ++
    [.echo ("Combining CSV files into: " ++ pathJoin directory_path output_file),
     .echo ("SQL Statement:\n" ++
       String.intercalate "\n" (sqlStatementsGo all 0 csv_files)),
     .connectDB,
     .writeOutput (pathJoin directory_path output_file)]
  else
    [.echo "Only one CSV file found. There is no point to combining a single file."]

/-! ## Graph Builder

Modelled from the spec: the Graph Builder of spec section 4.2 is not present
in the inspected source (the spec records in section 9 that the graph/DAG
execution path is unimplemented; cli.py only normalizes the task list).
The definitions below follow the spec's words: an adjacency structure from
the dependency lists, validation of dependency names, and the in-degree /
topological-reduction cycle check the spec offers as the algorithm, with the
remainder of a stalled reduction yielding a concrete reported cycle. -/

/-- Modelled from the spec (section 3): a declared task with its name and
ordered dependency list. -/
structure Task where
  name : String
  dependencies : List String
deriving Repr, DecidableEq

/-- The declared task names, in declaration order. -/
def taskNames (ts : List Task) : List String := ts.map Task.name

/-- The dependency relation of the spec: a depends on b, that is, some
declared task named a lists b among its dependencies. -/
def DependsOn (ts : List Task) (a b : String) : Prop :=
  ∃ t ∈ ts, t.name = a ∧ b ∈ t.dependencies

instance (ts : List Task) (a b : String) : Decidable (DependsOn ts a b) :=
  List.decidableBEx _ ts

/-- A closed walk in the dependency relation: an ordered sequence of task
names, each step an edge, returning to its start. -/
def ValidCycle (ts : List Task) (c : List String) : Prop :=
  2 ≤ c.length ∧ c.head? = c.getLast? ∧ List.Chain' (DependsOn ts) c

/-- Acyclicity: no closed walk exists in the dependency relation. -/
def Acyclic (ts : List Task) : Prop := ¬ ∃ c, ValidCycle ts c

/-- Every dependency name resolves to a declared task (spec section 3,
Graph invariant). -/
def KnownDeps (ts : List Task) : Prop :=
  ∀ t ∈ ts, ∀ d ∈ t.dependencies, d ∈ taskNames ts

/-- Modelled from the spec (section 4.2): the validation errors of build. -/
inductive BuildError where
  | unknownDependency (task missing : String)
  | cycleError (cycle : List String)
deriving Repr, DecidableEq

/-- Modelled from the spec (section 3): the validated graph — the task set
together with a canonical execution order. -/
structure Graph where
  tasks : List Task
  order : List String
deriving Repr, DecidableEq

/-- Scan for a task referencing a dependency name that is not declared,
returning the first referencing task and the missing name. -/
def findUnknownDepIn (names : List String) : List Task → Option (String × String)
  | [] => none
  | t :: rest =>
    match t.dependencies.find? (fun d => !(names.contains d)) with
    | some d => some (t.name, d)
    | none => findUnknownDepIn names rest

/-- The dangling-reference check of spec section 4.2. -/
def findUnknownDep (ts : List Task) : Option (String × String) :=
  findUnknownDepIn (taskNames ts) ts

/-- The tasks whose dependencies are all already accounted for, in
declaration order (the spec's determinism requirement). -/
def readyTasks (done : List String) (pending : List Task) : List Task :=
  pending.filter (fun t => t.dependencies.all (fun d => done.contains d))

/-- Modelled from the spec (section 4.2): the topological reduction — keep
moving tasks all of whose dependencies are accounted for from pending to
done; if the reduction cannot account for all nodes, the remainder contains
a cycle.  Fuel bounds the iteration count; pending shrinks every productive
step, so pending.length steps always reach a fixpoint or exhaust pending. -/
def topoReduce : Nat → List String → List Task → List String × List Task
  | 0, done, pending => (done, pending)
  | fuel + 1, done, pending =>
    let ready := readyTasks done pending
    if ready.isEmpty then (done, pending)
    else
      topoReduce fuel (done ++ ready.map Task.name)
        (pending.filter (fun t => !(t.dependencies.all (fun d => done.contains d))))

/-- From the stalled remainder, pick for a task name a dependency that is
still in the remainder (every stalled task has one). -/
def pickNext (rem : List Task) (cur : String) : Option String :=
  match rem.find? (fun t => t.name == cur) with
  | none => none
  | some t => t.dependencies.find? (fun d => (taskNames rem).contains d)

/-- Follow dependencies inside the stalled remainder, recording the walk,
until a name repeats; the portion of the walk from the first occurrence of
that name, closed by the name itself, is the reported cycle. -/
def followCycle (rem : List Task) : Nat → List String → String → List String
  | 0, _, _ => []
  | fuel + 1, path, cur =>
    if path.contains cur then (path.dropWhile (fun x => x ≠ cur)) ++ [cur]
    else
      match pickNext rem cur with
      | none => []
      | some d => followCycle rem fuel (path ++ [cur]) d

/-- The concrete cycle reported for a stalled remainder. -/
def extractCycle (rem : List Task) : List String :=
  match rem with
  | [] => []
  | t :: _ => followCycle rem (rem.length + 1) [] t.name

/-- Modelled from the spec (section 4.2): build consumes the full task set
and returns either a validated Graph, or UnknownDependencyError for a
dangling reference, or CycleError carrying a concrete cycle found in the
unaccounted remainder of the topological reduction. -/
def build (ts : List Task) : Except BuildError Graph :=
  match findUnknownDep ts with
  | some td => .error (.unknownDependency td.1 td.2)
  | none =>
    let res := topoReduce ts.length [] ts
    if res.2.isEmpty then .ok ⟨ts, res.1⟩
    else .error (.cycleError (extractCycle res.2))

/-! ## Scheduler / Executor

Modelled from the spec: the Scheduler of spec sections 4.3 and 5 is not
present in the inspected source either.  It is modelled as a labelled
transition system over per-task execution states, exactly the state machine
the spec describes: Pending → Ready → Running → Succeeded/Failed, with the
side transition to Skipped when a dependency lands in Failed or Skipped, a
Ready task launched only while fewer than max_workers tasks are Running,
and the runnable invoked exactly on admission. -/

/-- Modelled from the spec (section 3): the per-task Execution State. -/
inductive ExecState where
  | pending
  | ready
  | running
  | succeeded
  | failed
  | skipped
deriving Repr, DecidableEq

/-- A terminal Execution State (spec glossary). -/
def Terminal (s : ExecState) : Prop :=
  s = .succeeded ∨ s = .failed ∨ s = .skipped

instance (s : ExecState) : Decidable (Terminal s) := by
  unfold Terminal; infer_instance

/-- The Scheduler's state: each task name's Execution State, plus whether
the task's runnable has been invoked. -/
structure SchedState where
  taskState : String → ExecState
  invoked : String → Bool

/-- All tasks Pending, nothing invoked: the state a run starts from. -/
def initState : SchedState := ⟨fun _ => .pending, fun _ => false⟩

/-- Point update of the execution-state map. -/
def setTask (σ : String → ExecState) (n : String) (v : ExecState) :
    String → ExecState :=
  fun m => if m = n then v else σ m

/-- Record that a task's runnable has been invoked. -/
def setInvoked (f : String → Bool) (n : String) : String → Bool :=
  fun m => if m = n then true else f m

/-- The number of declared tasks currently in the Running state. -/
def runningCount (ts : List Task) (σ : String → ExecState) : Nat :=
  ts.countP (fun t => decide (σ t.name = ExecState.running))

/-- Modelled from the spec (sections 4.3 and 5): one scheduling transition.
A Pending task whose dependencies are all Succeeded becomes Ready; a Ready
task is launched into Running — invoking its runnable — only while fewer than
maxWorkers tasks are Running; a Running task finishes Succeeded or Failed
according to its runnable's outcome; a Pending or Ready task with a Failed
or Skipped dependency is marked Skipped without being invoked. -/
inductive Step (ts : List Task) (maxWorkers : Nat) :
    SchedState → SchedState → Prop where
  | markReady (σ : SchedState) (t : Task) (ht : t ∈ ts)
      (hp : σ.taskState t.name = .pending)
      (hdeps : ∀ d ∈ t.dependencies, σ.taskState d = .succeeded) :
      Step ts maxWorkers σ ⟨setTask σ.taskState t.name .ready, σ.invoked⟩
  | launch (σ : SchedState) (t : Task) (ht : t ∈ ts)
      (hr : σ.taskState t.name = .ready)
      (hcap : runningCount ts σ.taskState < maxWorkers) :
      Step ts maxWorkers σ
        ⟨setTask σ.taskState t.name .running, setInvoked σ.invoked t.name⟩
  | finish (σ : SchedState) (t : Task) (outcome : Bool) (ht : t ∈ ts)
      (hr : σ.taskState t.name = .running) :
      Step ts maxWorkers σ
        ⟨setTask σ.taskState t.name
          (if outcome then .succeeded else .failed), σ.invoked⟩
  | skip (σ : SchedState) (t : Task) (d : String) (ht : t ∈ ts)
      (hp : σ.taskState t.name = .pending ∨ σ.taskState t.name = .ready)
      (hd : d ∈ t.dependencies)
      (hds : σ.taskState d = .failed ∨ σ.taskState d = .skipped) :
      Step ts maxWorkers σ ⟨setTask σ.taskState t.name .skipped, σ.invoked⟩

/-- The states a run with the given task set and worker limit can reach. -/
def Reach (ts : List Task) (maxWorkers : Nat) : SchedState → SchedState → Prop :=
  Relation.ReflTransGen (Step ts maxWorkers)

/-- Modelled from the spec (sections 4.3 and 7): the outcome of one whole
run — either validation fails before any task runs, or the scheduler drives
every task to a terminal state. -/
inductive PipelineResult where
  | validationFailed (e : BuildError)
  | completed (σ : SchedState)

/-- Modelled from the spec (sections 4.3 and 7): the run pipeline.
Validation errors surface before scheduling starts; otherwise the run
completes when every task has reached a terminal state. -/
inductive RunsTo (ts : List Task) (maxWorkers : Nat) : PipelineResult → Prop where
  | invalid (e : BuildError) (h : build ts = .error e) :
      RunsTo ts maxWorkers (.validationFailed e)
  | valid (g : Graph) (σ : SchedState) (h : build ts = .ok g)
      (hr : Reach ts maxWorkers initState σ)
      (hterm : ∀ t ∈ ts, Terminal (σ.taskState t.name)) :
      RunsTo ts maxWorkers (.completed σ)

/-! ## Concrete instances used by the witnesses -/

/-- The two-task cycle of spec Scenario C. -/
def cyclicPair : List Task := [⟨"a", ["b"]⟩, ⟨"b", ["a"]⟩]

/-- The dangling reference of spec Scenario D. -/
def undeclaredDep : List Task := [⟨"a", ["x"]⟩]

/-- A configuration whose automatey.dag section holds an empty task list. -/
def exampleDagConfig : ConfigVal :=
  .dict [("automatey", .dict [("dag", .dict [("tasks", .list [])])])]

/-- Spec Scenario B: a task with no dependencies whose runnable fails. -/
def failTask : Task := ⟨"a", []⟩

/-- Spec Scenario B: a task depending on the failing one. -/
def depTask : Task := ⟨"b", ["a"]⟩

/-- Spec Scenario B's task set. -/
def twoTasks : List Task := [failTask, depTask]

/-- Scenario B trace: a marked Ready. -/
def stB1 : SchedState := ⟨setTask initState.taskState "a" .ready, initState.invoked⟩

/-- Scenario B trace: a launched into Running. -/
def stB2 : SchedState :=
  ⟨setTask stB1.taskState "a" .running, setInvoked stB1.invoked "a"⟩

/-- Scenario B trace: a finished with a failing outcome. -/
def stB3 : SchedState := ⟨setTask stB2.taskState "a" .failed, stB2.invoked⟩

/-- Scenario B trace: b skipped because its dependency failed. -/
def stB4 : SchedState := ⟨setTask stB3.taskState "b" .skipped, stB3.invoked⟩

/-! ### Lemmas about the Graph Builder -/

theorem mem_taskNames {ts : List Task} {t : Task} (ht : t ∈ ts) :
    t.name ∈ taskNames ts :=
  List.mem_map_of_mem Task.name ht

theorem contains_true_iff (l : List String) (a : String) :
    l.contains a = true ↔ a ∈ l := List.elem_iff

theorem contains_false_iff (l : List String) (a : String) :
    l.contains a = false ↔ a ∉ l := by
  rw [← Bool.not_eq_true, not_iff_not]
  exact contains_true_iff l a

theorem name_inj {ts : List Task} (hnd : (taskNames ts).Nodup)
    {t t' : Task} (ht : t ∈ ts) (ht' : t' ∈ ts) (h : t.name = t'.name) :
    t = t' :=
  List.inj_on_of_nodup_map hnd ht ht' h

theorem findUnknownDepIn_none {names : List String} :
    ∀ {l : List Task}, findUnknownDepIn names l = none →
      ∀ t ∈ l, ∀ d ∈ t.dependencies, d ∈ names := by
  intro l
  induction l with
  | nil => intro _ t ht; cases ht
  | cons t rest ih =>
    intro h u hu d hd
    unfold findUnknownDepIn at h
    cases hf : t.dependencies.find? (fun d => !(names.contains d)) with
    | some d' => rw [hf] at h; cases h
    | none =>
      rw [hf] at h
      rcases List.mem_cons.mp hu with hu | hu
      · subst hu
        have := List.find?_eq_none.mp hf d hd
        simp only [Bool.not_eq_true', Bool.not_eq_false] at this
        exact (contains_true_iff names d).mp this
      · exact ih h u hu d hd

theorem knownDeps_of_findUnknownDep_none {ts : List Task}
    (h : findUnknownDep ts = none) : KnownDeps ts :=
  fun t ht d hd => findUnknownDepIn_none h t ht d hd

theorem findUnknownDepIn_some_of_bad {names : List String} :
    ∀ {l : List Task}, (∃ t ∈ l, ∃ d ∈ t.dependencies, d ∉ names) →
      ∃ tn dn, findUnknownDepIn names l = some (tn, dn) ∧
        (∃ t ∈ l, t.name = tn ∧ dn ∈ t.dependencies) ∧ dn ∉ names := by
  intro l
  induction l with
  | nil => rintro ⟨t, ht, _⟩; cases ht
  | cons t rest ih =>
    rintro ⟨u, hu, d, hd, hdn⟩
    unfold findUnknownDepIn
    cases hf : t.dependencies.find? (fun d => !(names.contains d)) with
    | some d' =>
      refine ⟨t.name, d', rfl, ⟨t, List.mem_cons_self t rest, rfl,
        List.mem_of_find?_eq_some hf⟩, ?_⟩
      have := List.find?_some hf
      simp only [Bool.not_eq_true'] at this
      exact (contains_false_iff names d').mp this
    | none =>
      rcases List.mem_cons.mp hu with hu | hu
      · subst hu
        exfalso
        have := List.find?_eq_none.mp hf d hd
        simp only [Bool.not_eq_true', Bool.not_eq_false] at this
        exact hdn ((contains_true_iff names d).mp this)
      · obtain ⟨tn, dn, heq, hprops⟩ := ih ⟨u, hu, d, hd, hdn⟩
        exact ⟨tn, dn, heq, ⟨hprops.1.imp fun v hv =>
          ⟨List.mem_cons_of_mem t hv.1, hv.2⟩, hprops.2⟩⟩

/-- The invariant of the topological reduction: pending tasks come from the
task set, every declared name is accounted for or still pending, accounted
names are no longer pending, and done lists each accounted task after all
of its dependencies. -/
structure ReduceInv (ts : List Task) (done : List String) (pending : List Task) :
    Prop where
  sub : ∀ t ∈ pending, t ∈ ts
  cover : ∀ n ∈ taskNames ts, n ∈ done ∨ n ∈ taskNames pending
  disj : ∀ n ∈ done, n ∉ taskNames pending
  ordClosed : ∀ t ∈ ts, t.name ∈ done → ∀ d ∈ t.dependencies,
    d ∈ done ∧ done.indexOf d < done.indexOf t.name

theorem reduceInv_init (ts : List Task) : ReduceInv ts [] ts where
  sub := fun _ ht => ht
  cover := fun _ hn => Or.inr hn
  disj := fun n hn => absurd hn (List.not_mem_nil n)
  ordClosed := fun _ _ h => absurd h (List.not_mem_nil _)

theorem mem_readyTasks {done : List String} {pending : List Task} {t : Task} :
    t ∈ readyTasks done pending ↔
      t ∈ pending ∧ ∀ d ∈ t.dependencies, d ∈ done := by
  unfold readyTasks
  rw [List.mem_filter]
  constructor
  · rintro ⟨hp, hall⟩
    exact ⟨hp, fun d hd =>
      (contains_true_iff done d).mp (List.all_eq_true.mp hall d hd)⟩
  · rintro ⟨hp, hall⟩
    exact ⟨hp, List.all_eq_true.mpr fun d hd =>
      (contains_true_iff done d).mpr (hall d hd)⟩

theorem mem_stillPending {done : List String} {pending : List Task} {t : Task} :
    t ∈ pending.filter (fun t => !(t.dependencies.all (fun d => done.contains d))) ↔
      t ∈ pending ∧ ¬ ∀ d ∈ t.dependencies, d ∈ done := by
  rw [List.mem_filter]
  constructor
  · rintro ⟨hp, hall⟩
    refine ⟨hp, fun hc => ?_⟩
    rw [Bool.not_eq_true'] at hall
    have := List.all_eq_true.mpr
      (fun d hd => (contains_true_iff done d).mpr (hc d hd))
    rw [hall] at this; cases this
  · rintro ⟨hp, hna⟩
    refine ⟨hp, ?_⟩
    rw [Bool.not_eq_true', ← Bool.not_eq_true]
    intro hall
    exact hna fun d hd =>
      (contains_true_iff done d).mp (List.all_eq_true.mp hall d hd)

theorem reduceInv_step {ts : List Task} (hnd : (taskNames ts).Nodup)
    {done : List String} {pending : List Task}
    (inv : ReduceInv ts done pending) :
    ReduceInv ts (done ++ (readyTasks done pending).map Task.name)
      (pending.filter (fun t => !(t.dependencies.all (fun d => done.contains d)))) := by
  set ready := readyTasks done pending with hready
  set pending' := pending.filter
    (fun t => !(t.dependencies.all (fun d => done.contains d))) with hpending'
  have hsplit : ∀ t ∈ pending, t ∈ ready ∨ t ∈ pending' := by
    intro t ht
    by_cases hall : ∀ d ∈ t.dependencies, d ∈ done
    · exact Or.inl (mem_readyTasks.mpr ⟨ht, hall⟩)
    · exact Or.inr (mem_stillPending.mpr ⟨ht, hall⟩)
  have hreadyPend : ∀ t ∈ ready, t ∈ pending := fun t ht =>
    (mem_readyTasks.mp ht).1
  have hpendPend : ∀ t ∈ pending', t ∈ pending := fun t ht =>
    (mem_stillPending.mp ht).1
  refine ⟨?_, ?_, ?_, ?_⟩
  · exact fun t ht => inv.sub t (hpendPend t ht)
  · intro n hn
    rcases inv.cover n hn with h | h
    · exact Or.inl (List.mem_append_left _ h)
    · obtain ⟨t, ht, hteq⟩ := List.mem_map.mp h
      rcases hsplit t ht with h' | h'
      · exact Or.inl (List.mem_append_right _
          (List.mem_map.mpr ⟨t, h', hteq⟩))
      · exact Or.inr (List.mem_map.mpr ⟨t, h', hteq⟩)
  · intro n hn hmem
    obtain ⟨t, ht, hteq⟩ := List.mem_map.mp hmem
    rcases List.mem_append.mp hn with h | h
    · exact inv.disj n h (List.mem_map.mpr ⟨t, hpendPend t ht, hteq⟩)
    · obtain ⟨u, hu, hueq⟩ := List.mem_map.mp h
      have hut : u = t := name_inj hnd
        (inv.sub u (hreadyPend u hu)) (inv.sub t (hpendPend t ht))
        (hueq.trans hteq.symm)
      subst hut
      have h1 := (mem_readyTasks.mp hu).2
      have h2 := (mem_stillPending.mp ht).2
      exact h2 h1
  · intro t ht hmem d hd
    rcases List.mem_append.mp hmem with h | h
    · obtain ⟨hdone, hlt⟩ := inv.ordClosed t ht h d hd
      refine ⟨List.mem_append_left _ hdone, ?_⟩
      rw [List.indexOf_append_of_mem hdone, List.indexOf_append_of_mem h]
      exact hlt
    · obtain ⟨u, hu, hueq⟩ := List.mem_map.mp h
      have hut : u = t := name_inj hnd (inv.sub u (hreadyPend u hu)) ht hueq
      subst hut
      have hdeps := (mem_readyTasks.mp hu).2
      have hddone := hdeps d hd
      refine ⟨List.mem_append_left _ hddone, ?_⟩
      rw [List.indexOf_append_of_mem hddone]
      have hnotdone : u.name ∉ done := fun hc =>
        inv.disj u.name hc (List.mem_map.mpr ⟨u, hreadyPend u hu, rfl⟩)
      rw [List.indexOf_append_of_not_mem hnotdone]
      calc done.indexOf d < done.length := List.indexOf_lt_length.mpr hddone
        _ ≤ done.length + ((ready.map Task.name).indexOf u.name) := Nat.le_add_right _ _

theorem topoReduce_inv {ts : List Task} (hnd : (taskNames ts).Nodup) :
    ∀ (fuel : Nat) (done : List String) (pending : List Task),
      ReduceInv ts done pending →
      ReduceInv ts (topoReduce fuel done pending).1 (topoReduce fuel done pending).2 := by
  intro fuel
  induction fuel with
  | zero => intro done pending inv; exact inv
  | succ n ih =>
    intro done pending inv
    unfold topoReduce
    by_cases h : (readyTasks done pending).isEmpty
    · simp only [h, if_true]
      exact inv
    · simp only [h, if_false]
      exact ih _ _ (reduceInv_step hnd inv)

theorem topoReduce_stall :
    ∀ (fuel : Nat) (done : List String) (pending : List Task),
      pending.length ≤ fuel →
      (topoReduce fuel done pending).2 = [] ∨
        readyTasks (topoReduce fuel done pending).1 (topoReduce fuel done pending).2 = [] := by
  intro fuel
  induction fuel with
  | zero =>
    intro done pending hlen
    have : pending = [] := List.eq_nil_of_length_eq_zero (Nat.le_zero.mp hlen)
    subst this
    exact Or.inl rfl
  | succ n ih =>
    intro done pending hlen
    unfold topoReduce
    by_cases h : (readyTasks done pending).isEmpty
    · simp only [h, if_true]
      exact Or.inr (List.isEmpty_iff.mp h)
    · simp only [h, if_false]
      apply ih
      have hne : readyTasks done pending ≠ [] := fun hc => h (by rw [hc]; rfl)
      obtain ⟨t, ht⟩ := List.exists_mem_of_ne_nil _ hne
      have hlt : (pending.filter
          (fun t => !(t.dependencies.all (fun d => done.contains d)))).length
          < pending.length := by
        apply List.length_filter_lt_length_iff_exists.mpr
        obtain ⟨hp, hall⟩ := List.mem_filter.mp ht
        exact ⟨t, hp, by rw [hall]; simp⟩
      omega

theorem chain_lt_head (g : String → Nat) :
    ∀ (l : List String) (x y : String),
      List.Chain' (fun a b => g b < g a) (x :: l) → y ∈ l → g y < g x := by
  intro l
  induction l with
  | nil => intro x y _ hy; cases hy
  | cons z l' ih =>
    intro x y hchain hy
    obtain ⟨hxz, hrest⟩ := List.chain'_cons.mp hchain
    rcases List.mem_cons.mp hy with hy | hy
    · subst hy; exact hxz
    · exact Nat.lt_trans (ih z y hrest hy) hxz

theorem acyclic_of_all_done {ts : List Task} {done : List String}
    (hcover : ∀ n ∈ taskNames ts, n ∈ done)
    (hord : ∀ t ∈ ts, t.name ∈ done → ∀ d ∈ t.dependencies,
      d ∈ done ∧ done.indexOf d < done.indexOf t.name) :
    Acyclic ts := by
  rintro ⟨c, hlen, hhl, hchain⟩
  have hchainR : List.Chain' (fun a b => done.indexOf b < done.indexOf a) c := by
    refine hchain.imp ?_
    rintro a b ⟨t, ht, hta, hbd⟩
    subst hta
    exact (hord t ht (hcover t.name (mem_taskNames ht)) b hbd).2
  match c, hlen with
  | x :: z :: l', _ =>
    have hl'ne : (z :: l') ≠ [] := List.cons_ne_nil z l'
    have hlast : (x :: z :: l').getLast? = some ((z :: l').getLast hl'ne) := by
      rw [List.getLast?_cons_cons]
      exact List.getLast?_eq_getLast _ hl'ne
    have hx : x = (z :: l').getLast hl'ne := by
      have := hhl
      rw [hlast] at this
      exact Option.some_injective _ this
    have hmem : (z :: l').getLast hl'ne ∈ z :: l' := List.getLast_mem hl'ne
    have := chain_lt_head (fun n => done.indexOf n) (z :: l') x _ hchainR hmem
    rw [← hx] at this
    exact Nat.lt_irrefl _ this

theorem nodup_subset_length {l l' : List String} (h : l.Nodup)
    (hs : ∀ x ∈ l, x ∈ l') : l.length ≤ l'.length :=
  calc l.length = l.toFinset.card := (List.toFinset_card_of_nodup h).symm
    _ ≤ l'.toFinset.card := Finset.card_le_card
        (by intro x hx; simp only [List.mem_toFinset] at *; exact hs x hx)
    _ ≤ l'.length := List.toFinset_card_le l'

theorem dropWhile_head_false {p : String → Bool} :
    ∀ (l : List String) {h0 : String} {tl : List String},
      l.dropWhile p = h0 :: tl → p h0 = false := by
  intro l
  induction l with
  | nil => intro h0 tl h; cases h
  | cons a l' ih =>
    intro h0 tl h
    rw [List.dropWhile_cons] at h
    by_cases hp : p a = true
    · rw [if_pos hp] at h
      exact ih h
    · rw [if_neg hp] at h
      cases h
      simp only [Bool.not_eq_true] at hp
      exact hp

theorem pickNext_spec {ts rem : List Task} {done : List String}
    (hknown : KnownDeps ts)
    (hsub : ∀ t ∈ rem, t ∈ ts)
    (hcover : ∀ n ∈ taskNames ts, n ∈ done ∨ n ∈ taskNames rem)
    (hstall : readyTasks done rem = [])
    {cur : String} (hcur : cur ∈ taskNames rem) :
    ∃ d, pickNext rem cur = some d ∧ d ∈ taskNames rem ∧ DependsOn ts cur d := by
  obtain ⟨t, ht, hteq⟩ := List.mem_map.mp hcur
  unfold pickNext
  cases hfind : rem.find? (fun u => u.name == cur) with
  | none =>
    exfalso
    exact List.find?_eq_none.mp hfind t ht (by rw [hteq]; exact beq_self_eq_true cur)
  | some u =>
    have hu : u ∈ rem := List.mem_of_find?_eq_some hfind
    have huname : u.name = cur := by
      have h1 := List.find?_some hfind
      simpa using h1
    have hunready := List.filter_eq_nil_iff.mp hstall u hu
    have hbad : ∃ d ∈ u.dependencies, d ∉ done := by
      by_contra hc
      push_neg at hc
      exact hunready (List.all_eq_true.mpr fun d hd =>
        (contains_true_iff done d).mpr (hc d hd))
    obtain ⟨d, hd, hdnd⟩ := hbad
    have hdnames : d ∈ taskNames ts := hknown u (hsub u hu) d hd
    have hdrem : d ∈ taskNames rem := (hcover d hdnames).resolve_left hdnd
    cases hdfind : u.dependencies.find? (fun d => (taskNames rem).contains d) with
    | none =>
      exfalso
      have := List.find?_eq_none.mp hdfind d hd
      rw [(contains_true_iff _ d).mpr hdrem] at this
      exact this rfl
    | some d0 =>
      refine ⟨d0, hdfind, ?_, ?_⟩
      · exact (contains_true_iff _ d0).mp (List.find?_some hdfind)
      · exact ⟨u, hsub u hu, huname, List.mem_of_find?_eq_some hdfind⟩

theorem followCycle_spec {ts rem : List Task}
    (hpick : ∀ cur ∈ taskNames rem,
      ∃ d, pickNext rem cur = some d ∧ d ∈ taskNames rem ∧ DependsOn ts cur d) :
    ∀ (fuel : Nat) (path : List String) (cur : String),
      List.Chain' (DependsOn ts) (path ++ [cur]) →
      path.Nodup →
      (∀ x ∈ path, x ∈ taskNames rem) →
      cur ∈ taskNames rem →
      (taskNames rem).length + 1 ≤ fuel + path.length →
      ValidCycle ts (followCycle rem fuel path cur) := by
  intro fuel
  induction fuel with
  | zero =>
    intro path cur _ hnodup hpsub _ hfuel
    exfalso
    have := nodup_subset_length hnodup hpsub
    omega
  | succ n ih =>
    intro path cur hchain hnodup hpsub hcur hfuel
    unfold followCycle
    by_cases hc : path.contains cur = true
    · simp only [hc, if_true]
      have hmem : cur ∈ path := (contains_true_iff _ _).mp hc
      have hdwne : path.dropWhile (fun x => x ≠ cur) ≠ [] := by
        rw [Ne, List.dropWhile_eq_nil_iff]
        push_neg
        exact ⟨cur, hmem, by simp⟩
      obtain ⟨h0, tl, hcons⟩ := List.exists_cons_of_ne_nil hdwne
      have hh0 : h0 = cur := by
        have hp := dropWhile_head_false path hcons
        exact not_not.mp (of_decide_eq_false hp)
      rw [hh0] at hcons
      have hsuffix : path.dropWhile (fun x => x ≠ cur) ++ [cur] <:+ path ++ [cur] := by
        obtain ⟨u, hu⟩ := List.dropWhile_suffix (l := path) (fun x => x ≠ cur)
        exact ⟨u, by rw [← List.append_assoc, hu]⟩
      refine ⟨?_, ?_, ?_⟩
      · rw [hcons]
        simp [List.length_append]
      · rw [hcons, List.getLast?_concat]
        simp
      · exact hchain.suffix hsuffix
    · simp only [hc, if_false]
      obtain ⟨d, hpd, hdmem, hedge⟩ := hpick cur hcur
      rw [hpd]
      have hcurnot : cur ∉ path := fun hmem =>
        hc ((contains_true_iff _ _).mpr hmem)
      apply ih (path ++ [cur]) d
      · rw [List.chain'_append]
        refine ⟨hchain, List.chain'_singleton d, ?_⟩
        intro x hx y hy
        rw [List.getLast?_concat] at hx
        simp only [List.head?_cons, Option.mem_def, Option.some.injEq] at hx hy
        rw [← hx, ← hy]
        exact hedge
      · rw [List.nodup_append]
        exact ⟨hnodup, List.nodup_singleton cur,
          fun x hx hx1 => hcurnot ((List.mem_singleton.mp hx1) ▸ hx)⟩
      · intro x hx
        rcases List.mem_append.mp hx with hx | hx
        · exact hpsub x hx
        · rw [List.mem_singleton.mp hx]; exact hcur
      · exact hdmem
      · rw [List.length_append, List.length_singleton]
        omega

theorem extractCycle_valid {ts rem : List Task} {done : List String}
    (hknown : KnownDeps ts)
    (hsub : ∀ t ∈ rem, t ∈ ts)
    (hcover : ∀ n ∈ taskNames ts, n ∈ done ∨ n ∈ taskNames rem)
    (hstall : readyTasks done rem = [])
    (hne : rem ≠ []) :
    ValidCycle ts (extractCycle rem) := by
  obtain ⟨t, rest, hrem⟩ := List.exists_cons_of_ne_nil hne
  have hpick : ∀ cur ∈ taskNames rem,
      ∃ d, pickNext rem cur = some d ∧ d ∈ taskNames rem ∧ DependsOn ts cur d :=
    fun cur hcur => pickNext_spec hknown hsub hcover hstall hcur
  rw [hrem]
  unfold extractCycle
  have hcur : t.name ∈ taskNames rem := by
    rw [hrem]; exact List.mem_map_of_mem Task.name (List.mem_cons_self t rest)
  have := followCycle_spec hpick (rem.length + 1) [] t.name
    (by simp only [List.nil_append]; exact List.chain'_singleton t.name)
    List.nodup_nil
    (fun x hx => absurd hx (List.not_mem_nil x))
    hcur
    (by rw [taskNames, List.length_map]; simp)
  rw [hrem] at this
  exact this

/-! ### Lemmas about the Scheduler -/

theorem setTask_same (σ : String → ExecState) (n : String) (v : ExecState) :
    setTask σ n v n = v := if_pos rfl

theorem setTask_ne (σ : String → ExecState) {n m : String} (v : ExecState)
    (h : m ≠ n) : setTask σ n v m = σ m := if_neg h

theorem setTask_succeeded {σ : String → ExecState} {n : String}
    {v : ExecState} {d : String} (hn : σ n ≠ ExecState.succeeded)
    (hd : σ d = ExecState.succeeded) : setTask σ n v d = ExecState.succeeded := by
  unfold setTask
  by_cases h : d = n
  · subst h; exact absurd hd hn
  · rw [if_neg h]; exact hd

theorem runningCount_setTask {ts : List Task} (hnd : (taskNames ts).Nodup)
    {n : String} (hn : n ∈ taskNames ts) (σ : String → ExecState)
    (v : ExecState) :
    runningCount ts (setTask σ n v) + (if σ n = ExecState.running then 1 else 0)
      = runningCount ts σ + (if v = ExecState.running then 1 else 0) := by
  induction ts with
  | nil => cases hn
  | cons t rest ih =>
    have hnd' : (taskNames rest).Nodup ∧ t.name ∉ taskNames rest := by
      have := List.nodup_cons.mp hnd
      exact ⟨this.2, this.1⟩
    unfold runningCount
    rw [List.countP_cons, List.countP_cons]
    by_cases hteq : t.name = n
    · have hnotrest : n ∉ taskNames rest := hteq ▸ hnd'.2
      have hrest : rest.countP (fun u => decide (setTask σ n v u.name = ExecState.running))
          = rest.countP (fun u => decide (σ u.name = ExecState.running)) := by
        apply List.countP_congr
        intro u hu
        have hne : u.name ≠ n := fun hc => hnotrest (hc ▸ mem_taskNames hu)
        rw [setTask_ne σ v hne]
      rw [hrest, hteq, setTask_same]
      by_cases h1 : σ n = ExecState.running <;>
        by_cases h2 : v = ExecState.running <;>
          simp [h1, h2]
    · rw [setTask_ne σ v hteq]
      have hn' : n ∈ taskNames rest := by
        rcases List.mem_cons.mp hn with h | h
        · exact absurd h.symm hteq
        · exact h
      have := ih hnd'.1 hn'
      unfold runningCount at this
      omega

theorem runningCount_init (ts : List Task) :
    runningCount ts initState.taskState = 0 := by
  unfold runningCount initState
  rw [List.countP_eq_zero]
  intro t _
  simp

theorem reach_runningCount_le {ts : List Task} {mw : Nat}
    (hnd : (taskNames ts).Nodup) {σ : SchedState}
    (h : Reach ts mw initState σ) : runningCount ts σ.taskState ≤ mw := by
  induction h with
  | refl => rw [runningCount_init]; exact Nat.zero_le mw
  | @tail σmid σfin hsteps hstep ih =>
    cases hstep with
    | markReady t ht hp hdeps =>
      have hadd := runningCount_setTask hnd (mem_taskNames ht) σmid.taskState
        ExecState.ready
      rw [hp] at hadd
      simp at hadd
      dsimp only
      omega
    | launch t ht hr hcap =>
      have hadd := runningCount_setTask hnd (mem_taskNames ht) σmid.taskState
        ExecState.running
      rw [hr] at hadd
      simp at hadd
      dsimp only
      omega
    | finish t outcome ht hr =>
      have hadd := runningCount_setTask hnd (mem_taskNames ht) σmid.taskState
        (if outcome then ExecState.succeeded else ExecState.failed)
      rw [hr] at hadd
      have hv : (if outcome then ExecState.succeeded else ExecState.failed)
          ≠ ExecState.running := by
        cases outcome <;> simp
      rw [if_neg hv] at hadd
      simp at hadd
      dsimp only
      omega
    | skip t d ht hp hd hds =>
      have hadd := runningCount_setTask hnd (mem_taskNames ht) σmid.taskState
        ExecState.skipped
      have hnr : σmid.taskState t.name ≠ ExecState.running := by
        rcases hp with h | h <;> rw [h] <;> simp
      rw [if_neg hnr] at hadd
      simp at hadd
      dsimp only
      omega

/-- The scheduling invariant: a task that has left Pending other than by
being Skipped has all dependencies Succeeded, and a task has been invoked
exactly when it is Running or has finished. -/
structure SchedInv (ts : List Task) (σ : SchedState) : Prop where
  startedDeps : ∀ t ∈ ts,
    (σ.taskState t.name = .ready ∨ σ.taskState t.name = .running ∨
     σ.taskState t.name = .succeeded ∨ σ.taskState t.name = .failed) →
    ∀ d ∈ t.dependencies, σ.taskState d = .succeeded
  invokedIff : ∀ t ∈ ts, σ.invoked t.name = true ↔
    (σ.taskState t.name = .running ∨ σ.taskState t.name = .succeeded ∨
     σ.taskState t.name = .failed)

theorem schedInv_init (ts : List Task) : SchedInv ts initState := by
  constructor
  · rintro t _ (h | h | h | h) <;> cases h
  · intro t _
    simp [initState]

theorem schedInv_step {ts : List Task} {mw : Nat} {σ σ' : SchedState}
    (hnd : (taskNames ts).Nodup) (inv : SchedInv ts σ)
    (hstep : Step ts mw σ σ') : SchedInv ts σ' := by
  cases hstep with
  | markReady t ht hp hdeps =>
    constructor
    · intro u hu hstarted d hd
      dsimp only at hstarted ⊢
      by_cases hun : u.name = t.name
      · have hut : u = t := name_inj hnd hu ht hun
        subst hut
        exact setTask_succeeded (hp ▸ (by simp)) (hdeps d hd)
      · rw [setTask_ne _ _ hun] at hstarted
        exact setTask_succeeded (hp ▸ (by simp))
          (inv.startedDeps u hu hstarted d hd)
    · intro u hu
      dsimp only
      by_cases hun : u.name = t.name
      · rw [hun, setTask_same]
        have hold := inv.invokedIff u hu
        rw [hun, hp] at hold
        simp only [reduceCtorEq, or_self, iff_false] at hold
        simp [hun, hold]
      · rw [setTask_ne _ _ hun]
        exact inv.invokedIff u hu
  | launch t ht hr hcap =>
    constructor
    · intro u hu hstarted d hd
      dsimp only at hstarted ⊢
      by_cases hun : u.name = t.name
      · have hut : u = t := name_inj hnd hu ht hun
        subst hut
        exact setTask_succeeded (hr ▸ (by simp))
          (inv.startedDeps u hu (Or.inl hr) d hd)
      · rw [setTask_ne _ _ hun] at hstarted
        exact setTask_succeeded (hr ▸ (by simp))
          (inv.startedDeps u hu hstarted d hd)
    · intro u hu
      dsimp only
      by_cases hun : u.name = t.name
      · rw [hun, setTask_same]
        simp [setInvoked, hun]
      · rw [setTask_ne _ _ hun]
        have : setInvoked σ.invoked t.name u.name = σ.invoked u.name := by
          unfold setInvoked
          rw [if_neg hun]
        rw [this]
        exact inv.invokedIff u hu
  | finish t outcome ht hr =>
    constructor
    · intro u hu hstarted d hd
      dsimp only at hstarted ⊢
      by_cases hun : u.name = t.name
      · have hut : u = t := name_inj hnd hu ht hun
        subst hut
        exact setTask_succeeded (hr ▸ (by simp))
          (inv.startedDeps u hu (Or.inr (Or.inl hr)) d hd)
      · rw [setTask_ne _ _ hun] at hstarted
        exact setTask_succeeded (hr ▸ (by simp))
          (inv.startedDeps u hu hstarted d hd)
    · intro u hu
      dsimp only
      by_cases hun : u.name = t.name
      · rw [hun, setTask_same]
        have hinvk : σ.invoked t.name = true :=
          (inv.invokedIff t ht).mpr (Or.inl hr)
        rw [hinvk]
        cases outcome <;> simp
      · rw [setTask_ne _ _ hun]
        exact inv.invokedIff u hu
  | skip t d ht hp hd hds =>
    constructor
    · intro u hu hstarted d' hd'
      dsimp only at hstarted ⊢
      by_cases hun : u.name = t.name
      · rw [hun, setTask_same] at hstarted
        rcases hstarted with h | h | h | h <;> cases h
      · rw [setTask_ne _ _ hun] at hstarted
        have hnsucc : σ.taskState t.name ≠ ExecState.succeeded := by
          rcases hp with h | h <;> rw [h] <;> simp
        exact setTask_succeeded hnsucc (inv.startedDeps u hu hstarted d' hd')
    · intro u hu
      dsimp only
      by_cases hun : u.name = t.name
      · rw [hun, setTask_same]
        have holdinv := inv.invokedIff u hu
        rw [hun] at holdinv
        have hfalse : σ.invoked t.name ≠ true := by
          intro hc
          rcases holdinv.mp hc with h | h | h <;>
            rcases hp with h' | h' <;> rw [h'] at h <;> cases h
        simp only [Bool.not_eq_true] at hfalse
        simp [hfalse]
      · rw [setTask_ne _ _ hun]
        exact inv.invokedIff u hu

theorem schedInv_reach {ts : List Task} {mw : Nat} {σ : SchedState}
    (hnd : (taskNames ts).Nodup) (h : Reach ts mw initState σ) :
    SchedInv ts σ := by
  induction h with
  | refl => exact schedInv_init ts
  | tail hsteps hstep ih => exact schedInv_step hnd ih hstep

/-! ### Lemmas about the CLI, the singleton, and the CSV helper -/

theorem hasKey_false_lookupEntry {entries : List (String × ConfigVal)}
    {k : String} (h : hasKey entries k = false) : lookupEntry entries k = none := by
  induction entries with
  | nil => rfl
  | cons p rest ih =>
    obtain ⟨k', v'⟩ := p
    unfold hasKey at h
    rw [Bool.or_eq_false_iff] at h
    unfold lookupEntry
    rw [if_neg (of_decide_eq_false h.1)]
    exact ih h.2

theorem lookupEntry_append {l₁ l₂ : List (String × ConfigVal)} {k : String}
    (h : lookupEntry l₁ k = none) :
    lookupEntry (l₁ ++ l₂) k = lookupEntry l₂ k := by
  induction l₁ with
  | nil => rfl
  | cons p rest ih =>
    obtain ⟨k', v'⟩ := p
    have h' : (if k' = k then some v' else lookupEntry rest k) = none := h
    rw [List.cons_append]
    show (if k' = k then some v' else lookupEntry (rest ++ l₂) k) = lookupEntry l₂ k
    by_cases hk : k' = k
    · rw [if_pos hk] at h'; cases h'
    · rw [if_neg hk] at h'
      rw [if_neg hk]
      exact ih h'

theorem lookupEntry_some_hasKey {entries : List (String × ConfigVal)}
    {k : String} {v : ConfigVal} (h : lookupEntry entries k = some v) :
    hasKey entries k = true := by
  induction entries with
  | nil => cases h
  | cons p rest ih =>
    obtain ⟨k', v'⟩ := p
    unfold lookupEntry at h
    unfold hasKey
    by_cases hk : k' = k
    · rw [decide_eq_true hk, Bool.true_or]
    · rw [if_neg hk] at h
      rw [ih h, Bool.or_true]

theorem combine_few (csv : List String) (dir out : String) (all : Bool)
    (h : csv.length < 2) :
    combine_csv_files csv dir out all
        = [.echo ("No CSV files found in directory: " ++ dir)] ∨
      combine_csv_files csv dir out all
        = [.echo "Only one CSV file found. There is no point to combining a single file."] := by
  match csv, h with
  | [], _ => exact Or.inl rfl
  | [x], _ => exact Or.inr rfl

/-! ### The claims -/

/-- C1: the claim says that on a configuration with no automatey.dag
section the run action echoes the no-DAG message and terminates normally
as a no-op.  The code cannot do this: the run branch passes the keyword
configure_exit_timer to Automatey(...), which Automatey.__init__ does not
accept (it takes register_atexit_timer), so every --run invocation raises
TypeError at cli.py lines 65-67, before get_config — on a no-dag
configuration included, the message is never echoed. -/
theorem run_action_raises_type_error :
    ("configure_exit_timer" ∈ runCallKeywords ∧
     "configure_exit_timer" ∉ automateyInitParams ∧
     bindsKeywords runCallKeywords automateyInitParams = false) ∧
    (∀ (cfg : ConfigVal) (w : Int), runAction cfg w = .error "TypeError") ∧
    get_config (ConfigVal.dict []) ["automatey", "dag"] = none ∧
    runAction (ConfigVal.dict []) 1 = .error "TypeError" :=
  ⟨⟨by decide, by decide, by decide⟩, fun _ _ => rfl, rfl, rfl⟩

/-- C2: a task declaration omitting dependencies is treated as declaring the
empty list: after the CLI's normalization loop, every task table has a
dependencies entry — the empty list when it was omitted, the original value
when it was present (and then the table is unchanged). -/
theorem dependencies_default (taskVals : List ConfigVal)
    (entries : List (String × ConfigVal))
    (h : ConfigVal.dict entries ∈ taskVals) :
    (∀ res, normalizeAll taskVals = .ok res → normalizeTask entries ∈ res) ∧
    (hasKey entries "dependencies" = false →
      normalizeTask entries = entries ++ [("dependencies", ConfigVal.list [])] ∧
      lookupEntry (normalizeTask entries) "dependencies" = some (.list [])) ∧
    (∀ v, lookupEntry entries "dependencies" = some v →
      normalizeTask entries = entries ∧
      lookupEntry (normalizeTask entries) "dependencies" = some v) := by
  refine ⟨?_, ?_, ?_⟩
  · induction taskVals with
    | nil => cases h
    | cons v rest ih =>
      intro res hres
      rcases List.mem_cons.mp h with hv | hv
      · rw [← hv] at hres
        unfold normalizeAll at hres
        cases hrest : normalizeAll rest with
        | ok rs =>
          rw [hrest] at hres
          injection hres with hres
          rw [← hres]
          exact List.mem_cons_self _ _
        | error e => rw [hrest] at hres; cases hres
      · cases v with
        | dict e' =>
          unfold normalizeAll at hres
          cases hrest : normalizeAll rest with
          | ok rs =>
            rw [hrest] at hres
            injection hres with hres
            rw [← hres]
            exact List.mem_cons_of_mem _ (ih hv rs hrest)
          | error e => rw [hrest] at hres; cases hres
        | str s => cases hres
        | int n => cases hres
        | bool b => cases hres
        | list xs => cases hres
  · intro hk
    have hnorm : normalizeTask entries
        = entries ++ [("dependencies", ConfigVal.list [])] := by
      unfold normalizeTask
      rw [hk]
      rfl
    refine ⟨hnorm, ?_⟩
    rw [hnorm, lookupEntry_append (hasKey_false_lookupEntry hk)]
    rfl
  · intro v hv
    have hnorm : normalizeTask entries = entries := by
      unfold normalizeTask
      rw [lookupEntry_some_hasKey hv]
      rfl
    exact ⟨hnorm, by rw [hnorm]; exact hv⟩

theorem dependencies_default_witness :
    (ConfigVal.dict [] ∈ [ConfigVal.dict []]) ∧
    ((∀ res, normalizeAll [ConfigVal.dict []] = .ok res →
        normalizeTask [] ∈ res) ∧
     (hasKey [] "dependencies" = false →
        normalizeTask ([] : List (String × ConfigVal))
          = [] ++ [("dependencies", ConfigVal.list [])] ∧
        lookupEntry (normalizeTask []) "dependencies" = some (.list [])) ∧
     (∀ v, lookupEntry [] "dependencies" = some v →
        normalizeTask ([] : List (String × ConfigVal)) = [] ∧
        lookupEntry (normalizeTask []) "dependencies" = some v)) :=
  ⟨List.mem_singleton.mpr rfl,
    dependencies_default [ConfigVal.dict []] [] (List.mem_singleton.mpr rfl)⟩

/-- C3: the claim says a max_workers value below 1 is rejected as a
configuration error before any task executes.  The code performs no such
validation: the run branch never reads max_workers, so its result is
identical for every integer value, and at the failing inputs 0 and -5 no
configuration error about max_workers is reported — the observable outcome
is the TypeError every --run raises at the Automatey(...) keyword mismatch
(cli.py lines 65-67), independent of the worker value. -/
theorem max_workers_not_validated :
    (∀ (cfg : ConfigVal) (w w' : Int), runAction cfg w = runAction cfg w') ∧
    runAction exampleDagConfig 0 = .error "TypeError" ∧
    runAction exampleDagConfig (-5) = .error "TypeError" :=
  ⟨fun _ _ _ => rfl, rfl, rfl⟩

/-- C8: Automatey is a process-wide singleton with a re-initialization
guard: a construction stores the object it returns in the class-level
instance variable, and any later construction — with any other environment
and config_file_path — returns that same object with every field unchanged
and leaves the instance variable as it was. -/
theorem singleton_reinit_guard (env env' : Env) (p p' : String)
    (st : Option AutomateyObj) :
    (automateyCall env p st).2 = some (automateyCall env p st).1 ∧
    automateyCall env' p' (automateyCall env p st).2 =
      ((automateyCall env p st).1, (automateyCall env p st).2) := by
  have hinit : ∀ (e : Env) (q : String) (o : AutomateyObj),
      (automateyInit e q o).initialized = true := by
    intro e q o
    unfold automateyInit
    by_cases h : o.initialized <;> simp [h]
  have hguard : ∀ (e : Env) (q : String) (o : AutomateyObj),
      o.initialized = true → automateyInit e q o = o := by
    intro e q o h
    unfold automateyInit
    rw [if_pos h]
  cases st with
  | none =>
    refine ⟨rfl, ?_⟩
    show (automateyInit env' p' (automateyInit env p freshObj),
        some (automateyInit env' p' (automateyInit env p freshObj)))
      = (automateyInit env p freshObj, some (automateyInit env p freshObj))
    rw [hguard env' p' (automateyInit env p freshObj) (hinit env p freshObj)]
  | some o =>
    refine ⟨rfl, ?_⟩
    show (automateyInit env' p' (automateyInit env p o),
        some (automateyInit env' p' (automateyInit env p o)))
      = (automateyInit env p o, some (automateyInit env p o))
    rw [hguard env' p' (automateyInit env p o) (hinit env p o)]

/-- C9: get_config is total on key lookup: it returns exactly the value
reached by walking the keys when every step is a dict containing the key,
returns none in every other case (it is a total function, so it never
raises), and the empty key sequence returns the whole configuration. -/
theorem get_config_total_walks (cfg : ConfigVal) (keys : List String) :
    (∀ r, get_config cfg keys = some r ↔ Walks cfg keys r) ∧
    (get_config cfg keys = none ↔ ∀ r, ¬ Walks cfg keys r) ∧
    get_config cfg [] = some cfg := by
  have main : ∀ (ks : List String) (c : ConfigVal) (r : ConfigVal),
      get_config c ks = some r ↔ Walks c ks r := by
    intro ks
    induction ks with
    | nil =>
      intro c r
      constructor
      · intro h
        injection h with h
        rw [← h]
        exact Walks.nil c
      · intro h
        cases h
        rfl
    | cons k rest ih =>
      intro c r
      constructor
      · intro h
        cases c with
        | dict entries =>
          have h2 : (match lookupEntry entries k with
              | some v => get_config v rest
              | none => none) = some r := h
          cases hk : lookupEntry entries k with
          | some v =>
            rw [hk] at h2
            exact Walks.cons entries k rest v r hk ((ih v r).mp h2)
          | none => rw [hk] at h2; cases h2
        | str s => cases h
        | int n => cases h
        | bool b => cases h
        | list xs => cases h
      · intro h
        cases h with
        | cons entries _ _ v _ hk hw =>
          show (match lookupEntry entries k with
            | some v => get_config v rest
            | none => none) = some r
          rw [hk]
          exact (ih v r).mpr hw
  refine ⟨main keys cfg, ?_, rfl⟩
  constructor
  · intro h r hw
    have := (main keys cfg r).mpr hw
    rw [h] at this
    cases this
  · intro h
    cases hg : get_config cfg keys with
    | none => rfl
    | some r => exact absurd ((main keys cfg r).mp hg) (h r)

/-- C10: with fewer than two files matching the case-sensitive glob *.csv
(so uppercase .CSV files are not counted), combine_csv_files only prints a
message and returns: it emits no database connection and writes no output
file. -/
theorem combine_csv_noop (files : List String) (dir out : String) (all : Bool)
    (h : (files.filter matchesCsvGlob).length < 2) :
    (combine_csv_files (files.filter matchesCsvGlob) dir out all
        = [.echo ("No CSV files found in directory: " ++ dir)] ∨
     combine_csv_files (files.filter matchesCsvGlob) dir out all
        = [.echo "Only one CSV file found. There is no point to combining a single file."]) ∧
    (∀ e ∈ combine_csv_files (files.filter matchesCsvGlob) dir out all,
      ∃ m, e = .echo m) ∧
    matchesCsvGlob "mock_data2.CSV" = false ∧
    matchesCsvGlob "mock_data1.csv" = true := by
  have hmain := combine_few (files.filter matchesCsvGlob) dir out all h
  refine ⟨hmain, ?_, by decide, by decide⟩
  rcases hmain with h1 | h1 <;> rw [h1] <;> intro e he <;>
    exact ⟨_, List.mem_singleton.mp he⟩

theorem combine_csv_noop_witness :
    ((["mock_data1.csv", "mock_data2.CSV", "notes.txt"].filter
        matchesCsvGlob).length < 2) ∧
    ((combine_csv_files
        (["mock_data1.csv", "mock_data2.CSV", "notes.txt"].filter matchesCsvGlob)
        "." "combined.csv" false
        = [.echo ("No CSV files found in directory: " ++ ".")] ∨
      combine_csv_files
        (["mock_data1.csv", "mock_data2.CSV", "notes.txt"].filter matchesCsvGlob)
        "." "combined.csv" false
        = [.echo "Only one CSV file found. There is no point to combining a single file."]) ∧
     (∀ e ∈ combine_csv_files
        (["mock_data1.csv", "mock_data2.CSV", "notes.txt"].filter matchesCsvGlob)
        "." "combined.csv" false, ∃ m, e = .echo m) ∧
     matchesCsvGlob "mock_data2.CSV" = false ∧
     matchesCsvGlob "mock_data1.csv" = true) :=
  ⟨by decide,
    combine_csv_noop ["mock_data1.csv", "mock_data2.CSV", "notes.txt"]
      "." "combined.csv" false (by decide)⟩

/-- C4: with declared names unique and all dependency names resolving, the
Graph Builder succeeds on every acyclic dependency graph, and on every
graph containing a cycle it fails with CycleError whose reported cycle is a
valid closed walk in the dependency relation. -/
theorem build_cycle_dichotomy (ts : List Task)
    (hnd : (taskNames ts).Nodup) (hknown : findUnknownDep ts = none) :
    (Acyclic ts → ∃ g, build ts = .ok g) ∧
    (¬ Acyclic ts → ∃ c, build ts = .error (.cycleError c) ∧ ValidCycle ts c) := by
  have hK : KnownDeps ts := knownDeps_of_findUnknownDep_none hknown
  have inv := topoReduce_inv hnd ts.length [] ts (reduceInv_init ts)
  have hstall := topoReduce_stall ts.length [] ts (Nat.le_refl _)
  have hbuild : build ts =
      (if (topoReduce ts.length [] ts).2.isEmpty then
        Except.ok ⟨ts, (topoReduce ts.length [] ts).1⟩
      else
        Except.error (.cycleError (extractCycle (topoReduce ts.length [] ts).2))) := by
    unfold build
    rw [hknown]
  have hAc : (topoReduce ts.length [] ts).2 = [] → Acyclic ts := by
    intro he
    refine @acyclic_of_all_done ts (topoReduce ts.length [] ts).1 ?_ ?_
    · intro n hn
      rcases inv.cover n hn with h | h
      · exact h
      · rw [he] at h
        simp [taskNames] at h
    · exact inv.ordClosed
  have hCy : (topoReduce ts.length [] ts).2 ≠ [] →
      ValidCycle ts (extractCycle (topoReduce ts.length [] ts).2) := by
    intro hne
    have hst : readyTasks (topoReduce ts.length [] ts).1
        (topoReduce ts.length [] ts).2 = [] := hstall.resolve_left hne
    exact extractCycle_valid hK inv.sub inv.cover hst hne
  constructor
  · intro hA
    have he : (topoReduce ts.length [] ts).2 = [] := by
      by_contra hne
      exact hA ⟨_, hCy hne⟩
    exact ⟨⟨ts, (topoReduce ts.length [] ts).1⟩,
      by rw [hbuild, if_pos (List.isEmpty_iff.mpr he)]⟩
  · intro hNA
    have hne : (topoReduce ts.length [] ts).2 ≠ [] := fun he => hNA (hAc he)
    refine ⟨extractCycle (topoReduce ts.length [] ts).2, ?_, hCy hne⟩
    rw [hbuild, if_neg ?_]
    intro hc
    exact hne (List.isEmpty_iff.mp hc)

theorem build_cycle_dichotomy_witness :
    ((taskNames cyclicPair).Nodup ∧ findUnknownDep cyclicPair = none) ∧
    ((Acyclic cyclicPair → ∃ g, build cyclicPair = .ok g) ∧
     (¬ Acyclic cyclicPair →
       ∃ c, build cyclicPair = .error (.cycleError c) ∧ ValidCycle cyclicPair c)) :=
  ⟨⟨by decide, by decide⟩, build_cycle_dichotomy cyclicPair (by decide) (by decide)⟩

/-- C5: when some task lists a dependency name that is not a declared task,
build fails with UnknownDependencyError naming a referencing task and the
missing name, and every possible run outcome is that validation failure —
no task is ever executed. -/
theorem unknown_dependency_error {ts : List Task}
    (h : ∃ t ∈ ts, ∃ d ∈ t.dependencies, d ∉ taskNames ts) :
    ∃ tn dn, build ts = .error (.unknownDependency tn dn) ∧
      (∃ t ∈ ts, t.name = tn ∧ dn ∈ t.dependencies) ∧ dn ∉ taskNames ts ∧
      ∀ mw r, RunsTo ts mw r →
        r = .validationFailed (.unknownDependency tn dn) := by
  obtain ⟨tn, dn, hfind, hnames, hmiss⟩ := findUnknownDepIn_some_of_bad h
  have hbuild : build ts = .error (.unknownDependency tn dn) := by
    unfold build findUnknownDep
    rw [hfind]
  refine ⟨tn, dn, hbuild, hnames, hmiss, ?_⟩
  intro mw r hr
  cases hr with
  | invalid e he =>
    rw [hbuild] at he
    injection he with he
    rw [← he]
  | valid g σ hg hreach hterm =>
    rw [hbuild] at hg
    cases hg

theorem unknown_dependency_error_witness :
    (∃ t ∈ undeclaredDep, ∃ d ∈ t.dependencies, d ∉ taskNames undeclaredDep) ∧
    (∃ tn dn, build undeclaredDep = .error (.unknownDependency tn dn) ∧
      (∃ t ∈ undeclaredDep, t.name = tn ∧ dn ∈ t.dependencies) ∧
      dn ∉ taskNames undeclaredDep ∧
      ∀ mw r, RunsTo undeclaredDep mw r →
        r = .validationFailed (.unknownDependency tn dn)) :=
  ⟨by decide, unknown_dependency_error (by decide)⟩

/-- C6: failure propagation.  In any completed run (every task terminal), a
task with a dependency whose terminal state is Failed or Skipped is itself
Skipped and its runnable was never invoked; and a task enters Running only
from a state in which all of its dependencies are Succeeded. -/
theorem failure_propagation {ts : List Task} {mw : Nat}
    (hnd : (taskNames ts).Nodup) {σ : SchedState}
    (hreach : Reach ts mw initState σ)
    (hterm : ∀ t ∈ ts, Terminal (σ.taskState t.name))
    {t : Task} (ht : t ∈ ts) {d : String} (hd : d ∈ t.dependencies)
    (hds : σ.taskState d = .failed ∨ σ.taskState d = .skipped) :
    (σ.taskState t.name = .skipped ∧ σ.invoked t.name = false) ∧
    (∀ σ₁ σ₂, Reach ts mw initState σ₁ → Step ts mw σ₁ σ₂ →
      ∀ u ∈ ts, σ₁.taskState u.name ≠ .running →
        σ₂.taskState u.name = .running →
        ∀ e ∈ u.dependencies, σ₁.taskState e = .succeeded) := by
  have inv := schedInv_reach hnd hreach
  have hnotstarted : ¬(σ.taskState t.name = .ready ∨
      σ.taskState t.name = .running ∨ σ.taskState t.name = .succeeded ∨
      σ.taskState t.name = .failed) := by
    intro hstarted
    have := inv.startedDeps t ht hstarted d hd
    rcases hds with h | h <;> rw [h] at this <;> cases this
  have hskip : σ.taskState t.name = .skipped := by
    rcases hterm t ht with h | h | h
    · exact absurd (Or.inr (Or.inr (Or.inl h))) hnotstarted
    · exact absurd (Or.inr (Or.inr (Or.inr h))) hnotstarted
    · exact h
  constructor
  · refine ⟨hskip, ?_⟩
    have hiff := inv.invokedIff t ht
    rw [hskip] at hiff
    simp only [reduceCtorEq, or_self, iff_false, Bool.not_eq_true] at hiff
    exact hiff
  · intro σ₁ σ₂ hreach1 hstep u hu hnr hr e he
    have inv1 := schedInv_reach hnd hreach1
    cases hstep with
    | markReady t' ht' hp' hdeps' =>
      dsimp only at hr
      by_cases hname : u.name = t'.name
      · rw [hname, setTask_same] at hr; cases hr
      · rw [setTask_ne _ _ hname] at hr; exact absurd hr hnr
    | launch t' ht' hready hcap =>
      dsimp only at hr
      by_cases hname : u.name = t'.name
      · have : u = t' := name_inj hnd hu ht' hname
        subst this
        exact inv1.startedDeps u hu (Or.inl hready) e he
      · rw [setTask_ne _ _ hname] at hr; exact absurd hr hnr
    | finish t' outcome ht' hrun =>
      dsimp only at hr
      by_cases hname : u.name = t'.name
      · rw [hname, setTask_same] at hr
        cases outcome <;> simp at hr
      · rw [setTask_ne _ _ hname] at hr; exact absurd hr hnr
    | skip t' d' ht' hp' hd' hds' =>
      dsimp only at hr
      by_cases hname : u.name = t'.name
      · rw [hname, setTask_same] at hr; cases hr
      · rw [setTask_ne _ _ hname] at hr; exact absurd hr hnr

theorem failure_propagation_witness :
    ((taskNames twoTasks).Nodup ∧
     (∀ t ∈ twoTasks, Terminal (stB4.taskState t.name)) ∧
     depTask ∈ twoTasks ∧ "a" ∈ depTask.dependencies ∧
     (stB4.taskState "a" = .failed ∨ stB4.taskState "a" = .skipped)) ∧
    ((stB4.taskState depTask.name = .skipped ∧
      stB4.invoked depTask.name = false) ∧
     (∀ σ₁ σ₂, Reach twoTasks 1 initState σ₁ → Step twoTasks 1 σ₁ σ₂ →
       ∀ u ∈ twoTasks, σ₁.taskState u.name ≠ .running →
         σ₂.taskState u.name = .running →
         ∀ e ∈ u.dependencies, σ₁.taskState e = .succeeded)) := by
  have h1 : Step twoTasks 1 initState stB1 :=
    Step.markReady initState failTask (by decide) rfl
      (fun d hd => absurd hd (List.not_mem_nil d))
  have h2 : Step twoTasks 1 stB1 stB2 :=
    Step.launch stB1 failTask (by decide) (by decide) (by decide)
  have h3 : Step twoTasks 1 stB2 stB3 :=
    Step.finish stB2 failTask false (by decide) (by decide)
  have h4 : Step twoTasks 1 stB3 stB4 :=
    Step.skip stB3 depTask "a" (by decide) (Or.inl (by decide)) (by decide)
      (Or.inl (by decide))
  have hreach : Reach twoTasks 1 initState stB4 :=
    Relation.ReflTransGen.tail
      (Relation.ReflTransGen.tail
        (Relation.ReflTransGen.tail
          (Relation.ReflTransGen.tail Relation.ReflTransGen.refl h1) h2) h3) h4
  exact ⟨⟨by decide, by decide, by decide, by decide, Or.inl (by decide)⟩,
    @failure_propagation twoTasks 1 (by decide) stB4 hreach (by decide)
      depTask (by decide) "a" (by decide) (Or.inl (by decide))⟩

/-- C7: the concurrency bound.  In every state reachable during a run with
worker limit maxWorkers, at most maxWorkers tasks are simultaneously in the
Running state. -/
theorem concurrency_bound {ts : List Task} {mw : Nat}
    (hnd : (taskNames ts).Nodup) {σ : SchedState}
    (h : Reach ts mw initState σ) : runningCount ts σ.taskState ≤ mw :=
  reach_runningCount_le hnd h

theorem concurrency_bound_witness :
    ((taskNames twoTasks).Nodup ∧
      runningCount twoTasks initState.taskState ≤ 1) :=
  ⟨by decide, concurrency_bound (by decide) Relation.ReflTransGen.refl⟩

end Automatey
